import Mathlib

/-!
Verification of the todo-list document model and interactive session of
the `todo-rust` repository (src/src/main.rs), shallowly embedded in Lean.

Strings are modelled as `List Char`; Rust `str` operations (`trim`,
`starts_with`, `strip_prefix`, `lines`) are translated to functions over
`List Char`.  The classifier `App::load_todos`, the serializer
`App::save_todos`, the navigation methods `next`, `previous`, `goto_top`,
`goto_bottom`, `toggle_current` and the toggle-key branch of `run_app`
are embedded below; unbounded `loop`s become fuel-based searches whose
fuel (the list length) is proved sufficient.
-/

namespace TodoApp

/-- Unicode White_Space code points, as recognised by Rust
`char::is_whitespace` (used by `str::trim`). -/
def isWS (c : Char) : Bool :=
  c = ' ' || c = '\t' || c = '\n' || c = '\x0b' || c = '\x0c' || c = '\r' ||
  c = '\u0085' || c = ' ' || c = ' ' ||
  ((' ' : Char) ≤ c && c ≤ ' ') ||
  c = ' ' || c = ' ' || c = ' ' || c = ' ' || c = '　'

/-- Drop leading whitespace (Rust `str::trim_start`). -/
def trimL (l : List Char) : List Char := l.dropWhile isWS

/-- Drop trailing whitespace (Rust `str::trim_end`). -/
def trimR (l : List Char) : List Char := (l.reverse.dropWhile isWS).reverse

/-- Rust `str::trim`: drop leading and trailing whitespace. -/
def trim (l : List Char) : List Char := trimR (trimL l)

/-- Rust `str::starts_with` with a string pattern: `sw pat s` is true iff
`pat` is a prefix of `s`. -/
def sw : List Char → List Char → Bool
  | [], _ => true
  | _ :: _, [] => false
  | p :: ps, c :: cs => p == c && sw ps cs

/-- Rust `str::strip_prefix`: `some` remainder when the pattern is a
prefix, `none` otherwise. -/
def stripPfx (p s : List Char) : Option (List Char) :=
  if sw p s then some (s.drop p.length) else none

/- The structural prefixes of the line grammar, written as char lists.
`pfxTodoOpen` is the text of an unchecked box, `pfxTodoLower` and
`pfxTodoUpper` the checked boxes, `pfxH1`..`pfxH3` the header markers
(equals sign repeated, then a space), `pfxBullet` the bullet marker. -/

def pfxTodoOpen : List Char := ['*', ' ', '[', ' ', ']']

def pfxTodoLower : List Char := ['*', ' ', '[', 'x', ']']

def pfxTodoUpper : List Char := ['*', ' ', '[', 'X', ']']

def pfxH1 : List Char := ['=', ' ']

def pfxH2 : List Char := ['=', '=', ' ']

def pfxH3 : List Char := ['=', '=', '=', ' ']

def pfxBullet : List Char := ['*', ' ']

def pfxBulletBracket : List Char := ['*', ' ', '[']

/-- Mirror of the Rust `enum LineType`. -/
inductive LineType
  | Todo
  | Header1
  | Header2
  | Header3
  | Bullet
  | Text
  | Empty
deriving DecidableEq

/-- Mirror of the Rust `struct TodoItem`. -/
structure TodoItem where
  text : List Char
  completed : Bool
  line_type : LineType
deriving DecidableEq

/-- The loop body of `App::load_todos` (src/src/main.rs lines 147-208):
classify one already-trimmed line.  The branch order is exactly the
code's order: unchecked box, checked box, then the header tests in the
code's order (two chars, three chars, four chars), bullet, empty, text. -/
def classifyCore (trimmed : List Char) : TodoItem :=
  if sw pfxTodoOpen trimmed then
    { text := trim ((stripPfx pfxTodoOpen trimmed).getD []),
      completed := false, line_type := .Todo }
  else if sw pfxTodoLower trimmed || sw pfxTodoUpper trimmed then
    { text := trim (((stripPfx pfxTodoLower trimmed).orElse
        (fun _ => stripPfx pfxTodoUpper trimmed)).getD []),
      completed := true, line_type := .Todo }
  else if sw pfxH1 trimmed then
    { text := (stripPfx pfxH1 trimmed).getD trimmed,
      completed := false, line_type := .Header1 }
  else if sw pfxH2 trimmed then
    { text := (stripPfx pfxH2 trimmed).getD trimmed,
      completed := false, line_type := .Header2 }
  else if sw pfxH3 trimmed then
    { text := (stripPfx pfxH3 trimmed).getD trimmed,
      completed := false, line_type := .Header3 }
  else if sw pfxBullet trimmed && !sw pfxBulletBracket trimmed then
    { text := (stripPfx pfxBullet trimmed).getD trimmed,
      completed := false, line_type := .Bullet }
  else if trimmed.isEmpty then
    { text := [], completed := false, line_type := .Empty }
  else
    { text := trimmed, completed := false, line_type := .Text }

/-- Classify one raw line: the code first trims the line, then branches. -/
def classifyLine (line : List Char) : TodoItem := classifyCore (trim line)

/-- The line `App::save_todos` (src/src/main.rs lines 217-232) produces
for one record, without the trailing newline. -/
def renderLine (it : TodoItem) : List Char :=
  match it.line_type with
  | .Todo => (if it.completed then pfxTodoLower else pfxTodoOpen) ++ (' ' :: it.text)
  | .Header1 => pfxH1 ++ it.text
  | .Header2 => pfxH2 ++ it.text
  | .Header3 => pfxH3 ++ it.text
  | .Bullet => pfxBullet ++ it.text
  | .Text => it.text
  | .Empty => []

/-- Split on every newline character; `n` newlines give `n + 1`
fragments, none containing a newline. -/
def splitNl : List Char → List (List Char)
  | [] => [[]]
  | c :: cs =>
    if c = '\n' then [] :: splitNl cs
    else
      match splitNl cs with
      | [] => [[c]]
      | f :: fs => (c :: f) :: fs

/-- Drop one trailing carriage return, as Rust `lines` does for the
fragments that were terminated by a newline. -/
def stripCR (l : List Char) : List Char :=
  if l.getLast? = some '\r' then l.dropLast else l

/-- Rust `str::lines`: every fragment before a `'\n'` with a trailing
`'\r'` removed, plus the residue after the last `'\n'` when it is
nonempty (kept verbatim). -/
def linesOf (s : List Char) : List (List Char) :=
  let fs := splitNl s
  fs.dropLast.map stripCR ++
    (match fs.getLast? with
      | some [] => []
      | some lst => [lst]
      | none => [])

/-- `App::load_todos` applied to file content: classify each line in
order (the Rust loop pushes exactly one record per line). -/
def load_todos (content : List Char) : List TodoItem :=
  (linesOf content).map classifyLine

/-- The content string `App::save_todos` writes: one line per record,
each terminated by a newline. -/
def save_todos (items : List TodoItem) : List Char :=
  (items.map (fun it => renderLine it ++ ['\n'])).flatten

/-- `App::load_todos` including the missing-file test (src/src/main.rs
lines 135-140): a `none` file (the path does not exist) yields `ok []`
without touching the parser; an existing file is read and parsed.  The
error type mirrors `io::Result`, with read failures abstracted away. -/
def load_todos_fs (file : Option (List Char)) : Except Unit (List TodoItem) :=
  match file with
  | none => Except.ok []
  | some content => Except.ok (load_todos content)

/-! ### Basic facts about `trim`, `sw` and `stripPfx` -/

/-- The head of a list is acceptable: absent or not whitespace. -/
def headOk (l : List Char) : Prop := ∀ c, l.head? = some c → isWS c = false

/-- The last element of a list is acceptable: absent or not whitespace. -/
def lastOk (l : List Char) : Prop := ∀ c, l.getLast? = some c → isWS c = false

theorem trimR_eq_rdrop (l : List Char) : trimR l = l.rdropWhile isWS := rfl

theorem trimL_cons_pos {c : Char} (l : List Char) (h : isWS c = true) :
    trimL (c :: l) = trimL l := by
  simp [trimL, List.dropWhile_cons, h]

theorem trimL_cons_neg {c : Char} (l : List Char) (h : isWS c = false) :
    trimL (c :: l) = c :: l := by
  simp [trimL, List.dropWhile_cons, h]

theorem trimL_eq_self_of_headOk {l : List Char} (h : headOk l) : trimL l = l := by
  cases l with
  | nil => rfl
  | cons c cs => exact trimL_cons_neg cs (h c rfl)

theorem headOk_of_trimL_eq_self {l : List Char} (h : trimL l = l) : headOk l := by
  cases l with
  | nil => intro c hc; cases hc
  | cons c cs =>
    intro d hd
    cases hd
    by_contra hws
    rw [Bool.not_eq_false] at hws
    rw [trimL_cons_pos cs hws] at h
    have := congrArg List.length h
    have hle : (trimL cs).length ≤ cs.length :=
      (List.dropWhile_suffix isWS).sublist.length_le
    simp at this
    omega

theorem trimR_eq_self_of_lastOk {l : List Char} (h : lastOk l) : trimR l = l := by
  rw [trimR_eq_rdrop, List.rdropWhile_eq_self_iff]
  intro hl hws
  have := h (l.getLast hl) (List.getLast?_eq_getLast l hl)
  simp [this] at hws

theorem lastOk_of_trimR_eq_self {l : List Char} (h : trimR l = l) : lastOk l := by
  intro c hc
  rw [trimR_eq_rdrop, List.rdropWhile_eq_self_iff] at h
  have hne : l ≠ [] := by
    intro hnil; rw [hnil] at hc; cases hc
  have := h hne
  rw [List.getLast?_eq_getLast l hne] at hc
  cases hc
  simpa using this

theorem trimL_idem (l : List Char) : trimL (trimL l) = trimL l :=
  List.dropWhile_idempotent isWS l

theorem trimR_idem (l : List Char) : trimR (trimR l) = trimR l := by
  rw [trimR_eq_rdrop, trimR_eq_rdrop]
  exact List.rdropWhile_idempotent isWS l

theorem trimR_trim (l : List Char) : trimR (trim l) = trim l :=
  trimR_idem (trimL l)

theorem trimL_trim (l : List Char) : trimL (trim l) = trim l := by
  have hu : trimL (trimL l) = trimL l := trimL_idem l
  have hpre : trimR (trimL l) <+: trimL l := by
    rw [trimR_eq_rdrop]
    exact List.rdropWhile_prefix isWS (trimL l)
  show trimL (trimR (trimL l)) = trimR (trimL l)
  cases hr : trimR (trimL l) with
  | nil => rfl
  | cons c cs =>
    apply trimL_cons_neg
    apply headOk_of_trimL_eq_self hu c
    obtain ⟨t, ht⟩ := hpre
    rw [hr] at ht
    rw [← ht]
    rfl

theorem trim_trim (l : List Char) : trim (trim l) = trim l := by
  show trimR (trimL (trim l)) = trim l
  rw [trimL_trim, trimR_trim]

theorem headOk_trim (l : List Char) : headOk (trim l) :=
  headOk_of_trimL_eq_self (trimL_trim l)

theorem lastOk_trim (l : List Char) : lastOk (trim l) :=
  lastOk_of_trimR_eq_self (trimR_trim l)

theorem trim_eq_self {l : List Char} (h1 : headOk l) (h2 : lastOk l) : trim l = l := by
  show trimR (trimL l) = l
  rw [trimL_eq_self_of_headOk h1, trimR_eq_self_of_lastOk h2]

theorem trim_cons_ws {c : Char} (l : List Char) (h : isWS c = true) :
    trim (c :: l) = trim l := by
  show trimR (trimL (c :: l)) = trim l
  rw [trimL_cons_pos l h]
  rfl

theorem lastOk_append {x r : List Char} (hr : r ≠ []) (h : lastOk r) : lastOk (x ++ r) := by
  intro c hc
  rw [List.getLast?_append_of_ne_nil x hr] at hc
  exact h c hc

/-- Whitespace facts about the six structural characters. -/
theorem isWS_space : isWS ' ' = true := by decide

theorem not_isWS_star : isWS '*' = false := by decide

theorem not_isWS_eq : isWS '=' = false := by decide

theorem sw_append_self (p x : List Char) : sw p (p ++ x) = true := by
  induction p with
  | nil => rfl
  | cons c cs ih => simp [sw, ih]

theorem sw_decomp {p s : List Char} (h : sw p s = true) : p ++ s.drop p.length = s := by
  induction p generalizing s with
  | nil => simp
  | cons c cs ih =>
    cases s with
    | nil => simp [sw] at h
    | cons d ds =>
      simp only [sw, Bool.and_eq_true, beq_iff_eq] at h
      obtain ⟨rfl, hsw⟩ := h
      simpa using ih hsw

theorem sw_of_sw_append {p q s : List Char} (h : sw (p ++ q) s = true) : sw p s = true := by
  induction p generalizing s with
  | nil => rfl
  | cons c cs ih =>
    cases s with
    | nil => simp [sw] at h
    | cons d ds =>
      simp only [List.cons_append, sw, Bool.and_eq_true] at h ⊢
      exact ⟨h.1, ih h.2⟩

theorem stripPfx_pos {p s : List Char} (h : sw p s = true) :
    stripPfx p s = some (s.drop p.length) := by
  simp [stripPfx, h]

theorem classifyLine_eq_core (l : List Char) : classifyLine l = classifyCore (trim l) := rfl

/-! ### Claims about the classifier: header precedence, bullets, free text -/

/-- C7: classification of header lines follows the spec's top-to-bottom
precedence.  A trimmed line starting with the four-char header marker is
`Header3`, one starting with the three-char marker (and not the
four-char one) is `Header2`, one starting with the two-char marker (and
not the three-char one) is `Header1` — even though the code tests the
two-char marker first, because no longer marker line starts with a
shorter marker followed by a space. -/
theorem claim_C7_header_precedence (l : List Char) :
    (sw pfxH3 (trim l) = true →
      classifyLine l = { text := (trim l).drop 4, completed := false, line_type := .Header3 })
    ∧ (sw pfxH2 (trim l) = true → sw pfxH3 (trim l) = false →
      classifyLine l = { text := (trim l).drop 3, completed := false, line_type := .Header2 })
    ∧ (sw pfxH1 (trim l) = true → sw pfxH2 (trim l) = false →
      classifyLine l = { text := (trim l).drop 2, completed := false, line_type := .Header1 }) := by
  refine ⟨fun h3 => ?_, fun h2 _ => ?_, fun h1 _ => ?_⟩
  · have hd := sw_decomp h3
    simp only [pfxH3, List.length_cons, List.length_nil] at hd
    rw [classifyLine_eq_core, ← hd]
    simp [classifyCore, sw, stripPfx, pfxTodoOpen, pfxTodoLower, pfxTodoUpper,
      pfxH1, pfxH2, pfxH3, pfxBullet, pfxBulletBracket]
  · have hd := sw_decomp h2
    simp only [pfxH2, List.length_cons, List.length_nil] at hd
    rw [classifyLine_eq_core, ← hd]
    simp [classifyCore, sw, stripPfx, pfxTodoOpen, pfxTodoLower, pfxTodoUpper,
      pfxH1, pfxH2, pfxH3, pfxBullet, pfxBulletBracket]
  · have hd := sw_decomp h1
    simp only [pfxH1, List.length_cons, List.length_nil] at hd
    rw [classifyLine_eq_core, ← hd]
    simp [classifyCore, sw, stripPfx, pfxTodoOpen, pfxTodoLower, pfxTodoUpper,
      pfxH1, pfxH2, pfxH3, pfxBullet, pfxBulletBracket]

/-- C7 witness: the three header kinds at concrete lines. -/
theorem claim_C7_witness :
    classifyLine ['=', '=', '=', ' ', 'A']
        = { text := ['A'], completed := false, line_type := .Header3 }
    ∧ classifyLine ['=', '=', ' ', 'B']
        = { text := ['B'], completed := false, line_type := .Header2 }
    ∧ classifyLine ['=', ' ', 'C']
        = { text := ['C'], completed := false, line_type := .Header1 } :=
  ⟨((claim_C7_header_precedence ['=', '=', '=', ' ', 'A']).1 (by decide)).trans (by decide),
   ((claim_C7_header_precedence ['=', '=', ' ', 'B']).2.1 (by decide) (by decide)).trans
     (by decide),
   ((claim_C7_header_precedence ['=', ' ', 'C']).2.2 (by decide) (by decide)).trans (by decide)⟩

/-- The line of the C3 counterexample: a star, a space, and a bracketed
letter that is not a checkbox. -/
def lineStarBracketY : List Char := ['*', ' ', '[', 'y', ']', ' ', 'n', 'o', 't', 'e']

/-- C3 counterexample: the trimmed line starts with the bullet marker
and is not matched by the two todo rules, yet the classifier does not
produce a `Bullet` record for it — it produces a `Text` record carrying
the whole trimmed line.  This falsifies the claim that every such line
becomes a `Bullet`. -/
theorem claim_C3_cex :
    sw pfxBullet (trim lineStarBracketY) = true
    ∧ sw pfxTodoOpen (trim lineStarBracketY) = false
    ∧ sw pfxTodoLower (trim lineStarBracketY) = false
    ∧ sw pfxTodoUpper (trim lineStarBracketY) = false
    ∧ (classifyLine lineStarBracketY).line_type ≠ LineType.Bullet
    ∧ classifyLine lineStarBracketY
        = { text := lineStarBracketY, completed := false, line_type := .Text } := by
  decide

/-- C3 amended: a line whose trimmed content starts with the bullet
marker and does not start with a star, space and opening bracket is
classified as `Bullet`, with text the remainder after the marker.
(Lines starting with the star-space-bracket sequence that rules 1-2 do
not match fall through to `Text` instead; see the C9 claim.) -/
theorem claim_C3_amended (l : List Char) (h1 : sw pfxBullet (trim l) = true)
    (h2 : sw pfxBulletBracket (trim l) = false) :
    classifyLine l = { text := (trim l).drop 2, completed := false, line_type := .Bullet } := by
  have hd := sw_decomp h1
  simp only [pfxBullet, List.length_cons, List.length_nil] at hd
  have hr1 : sw pfxTodoOpen (trim l) = false := by
    cases hq : sw pfxTodoOpen (trim l) with
    | false => rfl
    | true =>
      have hq' : sw (pfxBulletBracket ++ [' ', ']']) (trim l) = true := hq
      rw [sw_of_sw_append hq'] at h2
      cases h2
  have hr2 : sw pfxTodoLower (trim l) = false := by
    cases hq : sw pfxTodoLower (trim l) with
    | false => rfl
    | true =>
      have hq' : sw (pfxBulletBracket ++ ['x', ']']) (trim l) = true := hq
      rw [sw_of_sw_append hq'] at h2
      cases h2
  have hr3 : sw pfxTodoUpper (trim l) = false := by
    cases hq : sw pfxTodoUpper (trim l) with
    | false => rfl
    | true =>
      have hq' : sw (pfxBulletBracket ++ ['X', ']']) (trim l) = true := hq
      rw [sw_of_sw_append hq'] at h2
      cases h2
  have hH1 : sw pfxH1 (trim l) = false := by rw [← hd]; simp [sw, pfxH1]
  have hH2 : sw pfxH2 (trim l) = false := by rw [← hd]; simp [sw, pfxH2]
  have hH3 : sw pfxH3 (trim l) = false := by rw [← hd]; simp [sw, pfxH3]
  have hstrip : stripPfx pfxBullet (trim l) = some ((trim l).drop 2) := by
    rw [stripPfx_pos h1]
    simp [pfxBullet]
  rw [classifyLine_eq_core]
  simp [classifyCore, hr1, hr2, hr3, hH1, hH2, hH3, h1, h2, hstrip]

/-- C3 amended witness: a plain bullet line. -/
theorem claim_C3_witness :
    classifyLine ['*', ' ', 'e', 'g', 'g', 's']
      = { text := ['e', 'g', 'g', 's'], completed := false, line_type := .Bullet } :=
  (claim_C3_amended ['*', ' ', 'e', 'g', 'g', 's'] (by decide) (by decide)).trans (by decide)

/-- C9: a line whose trimmed content starts with star, space, opening
bracket but matches none of the three todo checkbox prefixes is
classified as `Text` (free text), carrying the trimmed line verbatim. -/
theorem claim_C9_bracket_freetext (l : List Char)
    (hb : sw pfxBulletBracket (trim l) = true)
    (h1 : sw pfxTodoOpen (trim l) = false)
    (h2 : sw pfxTodoLower (trim l) = false)
    (h3 : sw pfxTodoUpper (trim l) = false) :
    classifyLine l = { text := trim l, completed := false, line_type := .Text } := by
  have hd := sw_decomp hb
  simp only [pfxBulletBracket, List.length_cons, List.length_nil] at hd
  have hH1 : sw pfxH1 (trim l) = false := by rw [← hd]; simp [sw, pfxH1]
  have hH2 : sw pfxH2 (trim l) = false := by rw [← hd]; simp [sw, pfxH2]
  have hH3 : sw pfxH3 (trim l) = false := by rw [← hd]; simp [sw, pfxH3]
  have hne : (trim l).isEmpty = false := by rw [← hd]; rfl
  rw [classifyLine_eq_core]
  simp [classifyCore, h1, h2, h3, hH1, hH2, hH3, hb, hne]

/-- C9 witness: a bracketed non-checkbox line is kept as free text. -/
theorem claim_C9_witness :
    classifyLine ['*', ' ', '[', 'z', ']', 'q']
      = { text := ['*', ' ', '[', 'z', ']', 'q'], completed := false, line_type := .Text } :=
  (claim_C9_bracket_freetext ['*', ' ', '[', 'z', ']', 'q'] (by decide) (by decide)
    (by decide) (by decide)).trans (by decide)

/-- C8: loading from a nonexistent source file returns an empty document
successfully; the error branch is not taken. -/
theorem claim_C8_missing_file :
    load_todos_fs none = Except.ok ([] : List TodoItem) := rfl

/-! ### The interactive session state and its operations -/

/-- The session fields of the Rust `struct App` that the operations
touch.  The `list_path` and `list_name` fields are constants of the
session, never read or written by the modelled operations, and are
omitted. -/
structure App where
  items : List TodoItem
  selected : Nat
deriving DecidableEq

/-- The Rust `matches!(item.line_type, LineType::Todo)` test. -/
def isTodoItem (it : TodoItem) : Bool :=
  match it.line_type with
  | .Todo => true
  | _ => false

/-- Whether the record at index `i` exists and is a todo
(`matches!(self.items[i].line_type, LineType::Todo)`; the searches only
evaluate it at indices below the length). -/
def todoAt (items : List TodoItem) (i : Nat) : Bool :=
  match items[i]? with
  | some it => isTodoItem it
  | none => false

/-- The `loop` of `App::next` / `App::previous` as a fuel-based search:
advance `cur` with `step` until the stop condition holds.  The callers
pass fuel `items.length`, which is proved sufficient (the loop always
breaks within `len` iterations because the cursor returns to its start
index). -/
def seek (stop : Nat → Bool) (step : Nat → Nat) : Nat → Nat → Nat
  | 0, cur => cur
  | f + 1, cur => if stop cur then cur else seek stop step f (step cur)

/-- The stop condition of both search loops: the record at `cur` is a
todo, or the cursor is back at the start index. -/
def stopAt (items : List TodoItem) (start cur : Nat) : Bool :=
  todoAt items cur || cur == start

/-- The index `App::next` leaves `selected` at, with explicit fuel. -/
def nextSelFuel (items : List TodoItem) (start fuel : Nat) : Nat :=
  seek (stopAt items start) (fun i => (i + 1) % items.length) fuel
    ((start + 1) % items.length)

/-- The index `App::next` leaves `selected` at (fuel `items.length`). -/
def nextSel (items : List TodoItem) (start : Nat) : Nat :=
  nextSelFuel items start items.length

/-- The decrement step of `App::previous`: wrap from `0` to `len - 1`. -/
def prevStep (n i : Nat) : Nat := if i == 0 then n - 1 else i - 1

/-- The index `App::previous` leaves `selected` at, with explicit fuel. -/
def prevSelFuel (items : List TodoItem) (start fuel : Nat) : Nat :=
  seek (stopAt items start) (prevStep items.length) fuel
    (prevStep items.length start)

/-- The index `App::previous` leaves `selected` at. -/
def prevSel (items : List TodoItem) (start : Nat) : Nat :=
  prevSelFuel items start items.length

/-- `App::next` (src/src/main.rs lines 240-252). -/
def next (a : App) : App :=
  if a.items.isEmpty then a
  else { a with selected := nextSel a.items a.selected }

/-- `App::previous` (src/src/main.rs lines 254-270). -/
def previous (a : App) : App :=
  if a.items.isEmpty then a
  else { a with selected := prevSel a.items a.selected }

/-- `App::goto_top` (src/src/main.rs lines 272-277): first todo index,
or `0`. -/
def goto_top (a : App) : App :=
  { a with selected := (a.items.findIdx? (fun it => isTodoItem it)).getD 0 }

/-- Rust `Iterator::rposition` for the todo test: index of the last
matching record, counted from the front. -/
def rpositionTodo (items : List TodoItem) : Option Nat :=
  match items.reverse.findIdx? (fun it => isTodoItem it) with
  | some k => some (items.length - 1 - k)
  | none => none

/-- `App::goto_bottom` (src/src/main.rs lines 279-284): last todo index,
or `len.saturating_sub(1)` (`Nat` subtraction saturates the same way). -/
def goto_bottom (a : App) : App :=
  { a with selected := (rpositionTodo a.items).getD (a.items.length - 1) }

/-- `App::toggle_current` (src/src/main.rs lines 286-292): flip
`completed` on the selected record if it is in range and a todo. -/
def toggle_current (a : App) : App :=
  if a.selected < a.items.length then
    match a.items[a.selected]? with
    | some it =>
      if isTodoItem it then
        { a with items := a.items.set a.selected { it with completed := !it.completed } }
      else a
    | none => a
  else a

/-! ### List.set helpers for the toggle frame conditions -/

theorem getElem?_set_self {α : Type _} :
    ∀ (l : List α) (i : Nat) (a : α), i < l.length → (l.set i a)[i]? = some a
  | [], i, a, h => by simp at h
  | _ :: _, 0, _, _ => by simp
  | x :: xs, i + 1, a, h =>
    by simpa using getElem?_set_self xs i a (by simpa using h)

theorem getElem?_set_other {α : Type _} :
    ∀ (l : List α) (i j : Nat) (a : α), j ≠ i → (l.set i a)[j]? = l[j]?
  | [], _, _, _, _ => by simp
  | _ :: _, 0, 0, _, h => absurd rfl h
  | x :: xs, 0, j + 1, a, h => by simp [List.set]
  | x :: xs, i + 1, 0, a, h => by simp [List.set]
  | x :: xs, i + 1, j + 1, a, h => by
    simpa using getElem?_set_other xs i j a (fun hh => h (by rw [hh]))

theorem set_self_of_getElem? {α : Type _} :
    ∀ (l : List α) (i : Nat) (a : α), l[i]? = some a → l.set i a = l
  | [], i, a, h => by simp at h
  | x :: xs, 0, a, h => by
    simp at h
    simp [List.set, h]
  | x :: xs, i + 1, a, h => by
    simp at h
    simp [List.set, set_self_of_getElem? xs i a h]

/-- C6: toggling twice at the same selection restores the original
application state exactly; moreover a single toggle preserves the
record count, every record at another index, and the text and kind of
the selected record — only its `completed` flag can change. -/
theorem claim_C6_toggle_twice (a : App) :
    toggle_current (toggle_current a) = a
    ∧ (toggle_current a).items.length = a.items.length
    ∧ (∀ j, j ≠ a.selected → (toggle_current a).items[j]? = a.items[j]?)
    ∧ ((toggle_current a).items[a.selected]?).map (fun it => it.text)
        = (a.items[a.selected]?).map (fun it => it.text)
    ∧ ((toggle_current a).items[a.selected]?).map (fun it => it.line_type)
        = (a.items[a.selected]?).map (fun it => it.line_type)
    ∧ (toggle_current a).selected = a.selected := by
  by_cases hlt : a.selected < a.items.length
  · obtain ⟨it, hit⟩ : ∃ it, a.items[a.selected]? = some it :=
      ⟨_, List.getElem?_eq_getElem hlt⟩
    by_cases htodo : isTodoItem it = true
    · have h1 : toggle_current a
          = { a with items := a.items.set a.selected { it with completed := !it.completed } } := by
        simp [toggle_current, hlt, hit, htodo]
      have hlen : (a.items.set a.selected { it with completed := !it.completed }).length
          = a.items.length := by simp
      have hget : (a.items.set a.selected { it with completed := !it.completed })[a.selected]?
          = some { it with completed := !it.completed } :=
        getElem?_set_self _ _ _ hlt
      have h2 : toggle_current (toggle_current a) = a := by
        rw [h1]
        have htodo' : isTodoItem { it with completed := !it.completed } = true := htodo
        simp only [toggle_current, hlen, hlt, if_pos, hget, htodo', if_true]
        have : ((a.items.set a.selected { it with completed := !it.completed }).set a.selected
            { it with completed := !(!it.completed) }) = a.items := by
          rw [List.set_set, Bool.not_not]
          have hit' : ({ it with completed := it.completed } : TodoItem) = it := rfl
          rw [hit', set_self_of_getElem? _ _ _ hit]
        rw [this]
      refine ⟨h2, ?_, ?_, ?_, ?_, ?_⟩
      · rw [h1]; exact hlen
      · intro j hj
        rw [h1]
        exact getElem?_set_other _ _ _ _ hj
      · rw [h1]
        show ((a.items.set a.selected _)[a.selected]?).map _ = _
        rw [hget, hit]
        rfl
      · rw [h1]
        show ((a.items.set a.selected _)[a.selected]?).map _ = _
        rw [hget, hit]
        rfl
      · rw [h1]
    · have h1 : toggle_current a = a := by
        simp [toggle_current, hlt, hit, htodo]
      rw [h1, h1]
      exact ⟨rfl, rfl, fun _ _ => rfl, rfl, rfl, rfl⟩
  · have h1 : toggle_current a = a := by
      simp [toggle_current, hlt]
    rw [h1, h1]
    exact ⟨rfl, rfl, fun _ _ => rfl, rfl, rfl, rfl⟩

/-- C6 witness: the double toggle at a concrete two-record document. -/
theorem claim_C6_witness :
    toggle_current (toggle_current
        { items := [{ text := ['a'], completed := false, line_type := .Todo },
                    { text := ['b'], completed := true, line_type := .Todo }], selected := 0 })
      = { items := [{ text := ['a'], completed := false, line_type := .Todo },
                    { text := ['b'], completed := true, line_type := .Todo }], selected := 0 }
    ∧ (toggle_current
        { items := [{ text := ['a'], completed := false, line_type := .Todo },
                    { text := ['b'], completed := true, line_type := .Todo }], selected := 0 }).items[1]?
      = some { text := ['b'], completed := true, line_type := LineType.Todo } :=
  ⟨(claim_C6_toggle_twice _).1,
   ((claim_C6_toggle_twice _).2.2.1 1 (by decide)).trans (by decide)⟩

/-! ### The toggle-key branch of run_app -/

/-- Observable side effects of one toggle-key event: writing the
serialized document, and running the celebration animation.  Their
order in the trace is their order in the code. -/
inductive SessionEffect
  | persist (content : List Char)
  | celebrate
deriving DecidableEq

/-- The toggle-key arm of `run_app`'s event match (src/src/main.rs lines
828-863): remember whether an incomplete todo existed, toggle, then if
the list just became fully complete (and is nonempty) save the file and
run the fireworks. -/
def handleToggleKey (a : App) : App × List SessionEffect :=
  let had_incomplete := a.items.any (fun it => isTodoItem it && !it.completed)
  let a' := toggle_current a
  let all_complete := (a'.items.filter (fun it => isTodoItem it)).all (fun it => it.completed)
  if had_incomplete && all_complete && a'.items.any (fun it => isTodoItem it) then
    (a', [SessionEffect.persist (save_todos a'.items), SessionEffect.celebrate])
  else
    (a', [])

theorem isTodoItem_iff (it : TodoItem) : isTodoItem it = true ↔ it.line_type = LineType.Todo := by
  cases h : it.line_type <;> simp [isTodoItem, h]

theorem any_incomplete_iff (its : List TodoItem) :
    its.any (fun it => isTodoItem it && !it.completed) = true
      ↔ ∃ it ∈ its, it.line_type = LineType.Todo ∧ it.completed = false := by
  simp [List.any_eq_true, Bool.and_eq_true, isTodoItem_iff, Bool.not_eq_true']

theorem all_complete_iff (its : List TodoItem) :
    (its.filter (fun it => isTodoItem it)).all (fun it => it.completed) = true
      ↔ ∀ it ∈ its, it.line_type = LineType.Todo → it.completed = true := by
  simp [List.all_eq_true, List.mem_filter, isTodoItem_iff, imp_iff_not_or]

theorem any_todo_iff (its : List TodoItem) :
    its.any (fun it => isTodoItem it) = true
      ↔ ∃ it ∈ its, it.line_type = LineType.Todo := by
  simp [List.any_eq_true, isTodoItem_iff]

/-- C1: handling a toggle key while running fires the celebration iff
some todo was incomplete before the toggle, every todo is complete
after it, and at least one todo exists; in exactly that case the
document is persisted (the serialized content written) and the persist
effect precedes the celebration; otherwise no effect happens.  The
application state is the toggled one either way. -/
theorem claim_C1_celebration (a : App) :
    (SessionEffect.celebrate ∈ (handleToggleKey a).2
      ↔ ((∃ it ∈ a.items, it.line_type = LineType.Todo ∧ it.completed = false)
         ∧ (∀ it ∈ (toggle_current a).items, it.line_type = LineType.Todo → it.completed = true)
         ∧ (∃ it ∈ (toggle_current a).items, it.line_type = LineType.Todo)))
    ∧ ((handleToggleKey a).2
        = [SessionEffect.persist (save_todos (toggle_current a).items), SessionEffect.celebrate]
       ∨ (handleToggleKey a).2 = [])
    ∧ (SessionEffect.persist (save_todos (toggle_current a).items) ∈ (handleToggleKey a).2
        ↔ SessionEffect.celebrate ∈ (handleToggleKey a).2)
    ∧ (handleToggleKey a).1 = toggle_current a := by
  by_cases hc : (a.items.any (fun it => isTodoItem it && !it.completed)
      && (((toggle_current a).items.filter (fun it => isTodoItem it)).all (fun it => it.completed)
      && (toggle_current a).items.any (fun it => isTodoItem it))) = true
  · have heff : handleToggleKey a
        = (toggle_current a,
           [SessionEffect.persist (save_todos (toggle_current a).items),
            SessionEffect.celebrate]) := by
      simp only [handleToggleKey]
      rw [if_pos]
      rw [← Bool.and_assoc] at hc
      exact hc
    rw [heff]
    simp only [Bool.and_eq_true] at hc
    obtain ⟨h1, h2, h3⟩ := hc
    refine ⟨?_, Or.inl rfl, by simp, rfl⟩
    refine ⟨fun _ => ?_, fun _ => by simp⟩
    exact ⟨(any_incomplete_iff _).1 h1, (all_complete_iff _).1 h2, (any_todo_iff _).1 h3⟩
  · have heff : handleToggleKey a = (toggle_current a, []) := by
      simp only [handleToggleKey]
      rw [if_neg]
      rw [← Bool.and_assoc] at hc
      exact fun hh => hc hh
    rw [heff]
    refine ⟨?_, Or.inr rfl, by simp, rfl⟩
    simp only [List.not_mem_nil, false_iff]
    intro ⟨p1, p2, p3⟩
    apply hc
    rw [Bool.and_eq_true, Bool.and_eq_true]
    exact ⟨(any_incomplete_iff _).2 p1, (all_complete_iff _).2 p2, (any_todo_iff _).2 p3⟩

/-! ### Reachability of the navigation searches -/

/-- Master lemma on the fuel search: if the `D`-th iterate of `step`
from `c` is the first stopping point, the search returns it, for any
fuel above `D`.  This is both the termination argument (fuel
`items.length` is enough) and the functional characterization. -/
theorem seek_reach (stop : Nat → Bool) (step : Nat → Nat) :
    ∀ (D f c j : Nat), D < f → step^[D] c = j →
      (∀ k, k < D → stop (step^[k] c) = false) → stop j = true →
      seek stop step f c = j := by
  intro D
  induction D with
  | zero =>
    intro f c j hf hit _ hj
    cases f with
    | zero => omega
    | succ f' =>
      simp only [Function.iterate_zero, id_eq] at hit
      subst hit
      simp [seek, hj]
  | succ D ih =>
    intro f c j hf hit hmin hj
    cases f with
    | zero => omega
    | succ f' =>
      have h0 : stop c = false := by simpa using hmin 0 (Nat.succ_pos D)
      simp only [seek, h0, Bool.false_eq_true, if_false]
      apply ih f' (step c) j (by omega)
      · rw [← Function.iterate_succ_apply]
        exact hit
      · intro k hk
        rw [← Function.iterate_succ_apply]
        exact hmin (k + 1) (by omega)
      · exact hj

/-- Iterating the increment-mod step adds the iteration count mod `n`. -/
theorem iterate_incMod (n : Nat) (hn : 0 < n) :
    ∀ (k c : Nat), c < n → (fun i => (i + 1) % n)^[k] c = (c + k) % n := by
  intro k
  induction k with
  | zero =>
    intro c hc
    simp [Nat.mod_eq_of_lt hc]
  | succ k ih =>
    intro c hc
    rw [Function.iterate_succ_apply, ih ((c + 1) % n) (Nat.mod_lt _ hn), Nat.mod_add_mod]
    congr 1
    omega

theorem prevStep_eq (n i : Nat) (hi : i < n) :
    prevStep n i = (i + (n - 1)) % n := by
  unfold prevStep
  by_cases h0 : i = 0
  · subst h0
    simp
  · have hb : (i == 0) = false := by
      simp [h0]
    rw [hb]
    simp only [Bool.false_eq_true, if_false]
    have : i + (n - 1) = (i - 1) + n := by omega
    rw [this, Nat.add_mod_right, Nat.mod_eq_of_lt (by omega)]

/-- Iterating the decrement-with-wrap step subtracts the iteration
count mod `n` (expressed by adding `n - 1` per step). -/
theorem iterate_prevStep (n : Nat) (hn : 0 < n) :
    ∀ (k c : Nat), c < n → (prevStep n)^[k] c = (c + (n - 1) * k) % n := by
  intro k
  induction k with
  | zero =>
    intro c hc
    simp [Nat.mod_eq_of_lt hc]
  | succ k ih =>
    intro c hc
    rw [Function.iterate_succ_apply, prevStep_eq n c hc,
      ih ((c + (n - 1)) % n) (Nat.mod_lt _ hn), Nat.mod_add_mod]
    congr 1
    rw [Nat.mul_succ]
    omega

/-- The (sorted) list of indices of the todo records. -/
def todoIdxs (items : List TodoItem) : List Nat :=
  (List.range items.length).filter (todoAt items)

/-- The number of todo records of a document. -/
def numTodos (items : List TodoItem) : Nat :=
  (items.filter (fun it => isTodoItem it)).length

theorem mem_todoIdxs {items : List TodoItem} {i : Nat} :
    i ∈ todoIdxs items ↔ i < items.length ∧ todoAt items i = true := by
  simp [todoIdxs, List.mem_filter, List.mem_range]

theorem todoIdxs_sorted (items : List TodoItem) : (todoIdxs items).Sorted (· < ·) :=
  (List.pairwise_lt_range items.length).filter _

theorem todoAt_cons_zero (it : TodoItem) (rest : List TodoItem) :
    todoAt (it :: rest) 0 = isTodoItem it := by
  simp [todoAt]

theorem todoAt_cons_succ (it : TodoItem) (rest : List TodoItem) (i : Nat) :
    todoAt (it :: rest) (i + 1) = todoAt rest i := by
  simp [todoAt]

/-- The index list has exactly one entry per todo record. -/
theorem todoIdxs_length (items : List TodoItem) :
    (todoIdxs items).length = numTodos items := by
  induction items with
  | nil => rfl
  | cons it rest ih =>
    unfold todoIdxs numTodos at ih ⊢
    rw [List.length_cons, List.range_succ_eq_map, List.filter_cons, List.filter_cons]
    have hmap : (List.map Nat.succ (List.range rest.length)).filter (todoAt (it :: rest))
        = List.map Nat.succ ((List.range rest.length).filter (todoAt rest)) := by
      rw [List.filter_map]
      congr 1
      apply List.filter_congr
      intro x _
      exact todoAt_cons_succ it rest x
    rw [hmap]
    by_cases h : isTodoItem it = true
    · simp only [todoAt_cons_zero, h, if_true]
      simp only [List.length_cons, List.length_map]
      omega
    · have h' : isTodoItem it = false := by
        cases hq : isTodoItem it
        · rfl
        · exact absurd hq h
      simp only [todoAt_cons_zero, h', Bool.false_eq_true, if_false]
      simp only [List.length_map]
      omega

theorem todoIdx_index_exists {items : List TodoItem} {c : Nat}
    (hc : c < items.length) (ht : todoAt items c = true) :
    ∃ q : Fin (todoIdxs items).length, (todoIdxs items).get q = c :=
  List.mem_iff_get.1 (mem_todoIdxs.2 ⟨hc, ht⟩)

/-- The stop test is false when the cursor is neither on a todo nor back
at the start. -/
theorem stopAt_false {items : List TodoItem} {start c : Nat}
    (h1 : todoAt items c = false) (h2 : (c == start) = false) :
    stopAt items start c = false := by
  simp [stopAt, h1, h2]

/-- The stop test holds on any todo index. -/
theorem stopAt_true_of_todo {items : List TodoItem} {start c : Nat}
    (h : todoAt items c = true) : stopAt items start c = true := by
  simp [stopAt, h]

/-- From a todo index, `next`'s search lands on the cyclically next todo
index: entry `k` of the sorted index list moves to entry `(k + 1) % m`.
Any fuel of at least `items.length` gives the same result, which is the
termination of the Rust `loop`. -/
theorem nextSelFuel_todo_succ (items : List TodoItem) (k : Nat)
    (hk : k < (todoIdxs items).length)
    (hk1 : (k + 1) % (todoIdxs items).length < (todoIdxs items).length)
    (f : Nat) (hf : items.length ≤ f) :
    nextSelFuel items ((todoIdxs items).get ⟨k, hk⟩) f
      = (todoIdxs items).get ⟨(k + 1) % (todoIdxs items).length, hk1⟩ := by
  have hm0 : 0 < (todoIdxs items).length := Nat.lt_of_le_of_lt (Nat.zero_le k) hk
  have hmono := (todoIdxs_sorted items).get_strictMono
  have hiL : (todoIdxs items).get ⟨k, hk⟩ ∈ todoIdxs items := List.get_mem _ _ _
  have hi := mem_todoIdxs.1 hiL
  have hjL : (todoIdxs items).get ⟨(k + 1) % (todoIdxs items).length, hk1⟩ ∈ todoIdxs items :=
    List.get_mem _ _ _
  have hj := mem_todoIdxs.1 hjL
  have hn0 : 0 < items.length := Nat.lt_of_le_of_lt (Nat.zero_le _) hi.1
  show seek (stopAt items ((todoIdxs items).get ⟨k, hk⟩))
      (fun x => (x + 1) % items.length) f
      (((todoIdxs items).get ⟨k, hk⟩ + 1) % items.length) = _
  rcases Nat.lt_or_ge (k + 1) (todoIdxs items).length with hcase | hcase
  · -- the successor entry exists without wrapping
    have hmodeq : (k + 1) % (todoIdxs items).length = k + 1 := Nat.mod_eq_of_lt hcase
    have hij : (todoIdxs items).get ⟨k, hk⟩
        < (todoIdxs items).get ⟨(k + 1) % (todoIdxs items).length, hk1⟩ := by
      apply hmono
      show k < (k + 1) % (todoIdxs items).length
      omega
    apply seek_reach _ _
      ((todoIdxs items).get ⟨(k + 1) % (todoIdxs items).length, hk1⟩
        - (todoIdxs items).get ⟨k, hk⟩ - 1) f _ _ (by omega)
    · rw [iterate_incMod _ hn0 _ _ (Nat.mod_lt _ hn0), Nat.mod_add_mod]
      have harith : (todoIdxs items).get ⟨k, hk⟩ + 1
          + ((todoIdxs items).get ⟨(k + 1) % (todoIdxs items).length, hk1⟩
            - (todoIdxs items).get ⟨k, hk⟩ - 1)
          = (todoIdxs items).get ⟨(k + 1) % (todoIdxs items).length, hk1⟩ := by omega
      rw [harith, Nat.mod_eq_of_lt hj.1]
    · intro k' hk'
      rw [iterate_incMod _ hn0 _ _ (Nat.mod_lt _ hn0), Nat.mod_add_mod]
      have hlt : (todoIdxs items).get ⟨k, hk⟩ + 1 + k' < items.length := by omega
      rw [Nat.mod_eq_of_lt hlt]
      apply stopAt_false
      · cases hq : todoAt items ((todoIdxs items).get ⟨k, hk⟩ + 1 + k') with
        | false => rfl
        | true =>
          obtain ⟨⟨q, hql⟩, hgq⟩ := todoIdx_index_exists hlt hq
          have hfin1 : (⟨k, hk⟩ : Fin (todoIdxs items).length) < ⟨q, hql⟩ :=
            hmono.lt_iff_lt.1 (by rw [hgq]; omega)
          have hfin2 : (⟨q, hql⟩ : Fin (todoIdxs items).length)
              < ⟨(k + 1) % (todoIdxs items).length, hk1⟩ :=
            hmono.lt_iff_lt.1 (by rw [hgq]; omega)
          have h1 : k < q := hfin1
          have h2 : q < (k + 1) % (todoIdxs items).length := hfin2
          omega
      · rw [beq_eq_false_iff_ne]
        omega
    · exact stopAt_true_of_todo hj.2
  · -- wrap around: k is the last entry, the successor is entry 0
    have hkm : k + 1 = (todoIdxs items).length := by omega
    have hji : (todoIdxs items).get ⟨(k + 1) % (todoIdxs items).length, hk1⟩
        ≤ (todoIdxs items).get ⟨k, hk⟩ := by
      apply hmono.monotone
      show (k + 1) % (todoIdxs items).length ≤ k
      have : (k + 1) % (todoIdxs items).length = 0 := by
        rw [hkm, Nat.mod_self]
      omega
    apply seek_reach _ _
      (items.length - (todoIdxs items).get ⟨k, hk⟩ - 1
        + (todoIdxs items).get ⟨(k + 1) % (todoIdxs items).length, hk1⟩) f _ _ (by omega)
    · rw [iterate_incMod _ hn0 _ _ (Nat.mod_lt _ hn0), Nat.mod_add_mod]
      have harith : (todoIdxs items).get ⟨k, hk⟩ + 1
          + (items.length - (todoIdxs items).get ⟨k, hk⟩ - 1
            + (todoIdxs items).get ⟨(k + 1) % (todoIdxs items).length, hk1⟩)
          = items.length
            + (todoIdxs items).get ⟨(k + 1) % (todoIdxs items).length, hk1⟩ := by omega
      rw [harith, Nat.add_mod_left, Nat.mod_eq_of_lt hj.1]
    · intro k' hk'
      rw [iterate_incMod _ hn0 _ _ (Nat.mod_lt _ hn0), Nat.mod_add_mod]
      rcases Nat.lt_or_ge k' (items.length - (todoIdxs items).get ⟨k, hk⟩ - 1) with hsub | hsub
      · have hlt : (todoIdxs items).get ⟨k, hk⟩ + 1 + k' < items.length := by omega
        rw [Nat.mod_eq_of_lt hlt]
        apply stopAt_false
        · cases hq : todoAt items ((todoIdxs items).get ⟨k, hk⟩ + 1 + k') with
          | false => rfl
          | true =>
            obtain ⟨⟨q, hql⟩, hgq⟩ := todoIdx_index_exists hlt hq
            have hfin1 : (⟨k, hk⟩ : Fin (todoIdxs items).length) < ⟨q, hql⟩ :=
              hmono.lt_iff_lt.1 (by rw [hgq]; omega)
            have h1 : k < q := hfin1
            omega
        · rw [beq_eq_false_iff_ne]
          omega
      · have harith : (todoIdxs items).get ⟨k, hk⟩ + 1 + k'
            = items.length + ((todoIdxs items).get ⟨k, hk⟩ + 1 + k' - items.length) := by
          omega
        rw [harith, Nat.add_mod_left]
        have hrlt : (todoIdxs items).get ⟨k, hk⟩ + 1 + k' - items.length
            < (todoIdxs items).get ⟨(k + 1) % (todoIdxs items).length, hk1⟩ := by omega
        have hrn : (todoIdxs items).get ⟨k, hk⟩ + 1 + k' - items.length < items.length := by
          omega
        rw [Nat.mod_eq_of_lt hrn]
        apply stopAt_false
        · cases hq : todoAt items
              ((todoIdxs items).get ⟨k, hk⟩ + 1 + k' - items.length) with
          | false => rfl
          | true =>
            obtain ⟨⟨q, hql⟩, hgq⟩ := todoIdx_index_exists hrn hq
            have hfin2 : (⟨q, hql⟩ : Fin (todoIdxs items).length)
                < ⟨(k + 1) % (todoIdxs items).length, hk1⟩ :=
              hmono.lt_iff_lt.1 (by rw [hgq]; omega)
            have h2 : q < (k + 1) % (todoIdxs items).length := hfin2
            have : (k + 1) % (todoIdxs items).length = 0 := by
              rw [hkm, Nat.mod_self]
            omega
        · rw [beq_eq_false_iff_ne]
          omega
    · exact stopAt_true_of_todo hj.2

/-- Iterating `next`'s index map from entry `k` of the todo index list
lands on entry `(k + t) % m`. -/
theorem nextSel_iterate (items : List TodoItem) :
    ∀ (t k : Nat) (hk : k < (todoIdxs items).length)
      (hkt : (k + t) % (todoIdxs items).length < (todoIdxs items).length),
      (nextSel items)^[t] ((todoIdxs items).get ⟨k, hk⟩)
        = (todoIdxs items).get ⟨(k + t) % (todoIdxs items).length, hkt⟩ := by
  intro t
  induction t with
  | zero =>
    intro k hk hkt
    simp only [Function.iterate_zero, id_eq]
    congr 1
    exact Fin.ext (by simp [Nat.mod_eq_of_lt hk])
  | succ t ih =>
    intro k hk hkt
    have hm0 : 0 < (todoIdxs items).length := Nat.lt_of_le_of_lt (Nat.zero_le k) hk
    rw [Function.iterate_succ_apply']
    have hmid : (k + t) % (todoIdxs items).length < (todoIdxs items).length :=
      Nat.mod_lt _ hm0
    rw [ih k hk hmid]
    have hsucc := nextSelFuel_todo_succ items ((k + t) % (todoIdxs items).length) hmid
      (Nat.mod_lt _ hm0) items.length (Nat.le_refl _)
    show nextSelFuel items _ items.length = _
    rw [hsucc]
    congr 1
    apply Fin.ext
    show ((k + t) % (todoIdxs items).length + 1) % (todoIdxs items).length
      = (k + (t + 1)) % (todoIdxs items).length
    rw [Nat.mod_add_mod, Nat.add_assoc]

theorem next_items (a : App) : (next a).items = a.items := by
  unfold next
  by_cases h : a.items.isEmpty <;> simp [h]

theorem next_selected (a : App) (h : a.items ≠ []) :
    (next a).selected = nextSel a.items a.selected := by
  have hni : a.items.isEmpty = false := by
    cases hq : a.items with
    | nil => exact absurd hq h
    | cons x xs => rfl
  simp [next, hni]

/-- Iterating `next` on an application never changes the items and acts
on the selection as the iterated index map. -/
theorem next_iterate_app (items : List TodoItem) (hne : items ≠ []) :
    ∀ (t s : Nat),
      (next^[t] { items := items, selected := s } : App).items = items
      ∧ (next^[t] { items := items, selected := s } : App).selected
          = (nextSel items)^[t] s := by
  intro t
  induction t with
  | zero => intro s; exact ⟨rfl, rfl⟩
  | succ t ih =>
    intro s
    rw [Function.iterate_succ_apply', Function.iterate_succ_apply']
    obtain ⟨hit, hsel⟩ := ih s
    refine ⟨by rw [next_items, hit], ?_⟩
    rw [next_selected _ (by rw [hit]; exact hne), hit, hsel]

/-- The three-record document of the C4 counterexample: two todos
followed by a text record. -/
def cexItems : List TodoItem :=
  [{ text := ['a'], completed := false, line_type := .Todo },
   { text := ['b'], completed := false, line_type := .Todo },
   { text := ['c'], completed := false, line_type := .Text }]

/-- C4 counterexample: on a document of three records (two of them
todos), starting from the todo at index 0, calling `next` three times
(`len` = number of records = 3) ends at index 1, not back at the
starting record — the claim's iteration count `len` is wrong. -/
theorem claim_C4_cex :
    todoAt cexItems 0 = true
    ∧ cexItems.length = 3
    ∧ (next^[3] { items := cexItems, selected := 0 } : App).selected = 1
    ∧ (next^[3] { items := cexItems, selected := 0 } : App).selected ≠ 0 := by
  decide

/-- C4 amended: on a document with at least one todo record, starting
from a selection on a todo record, calling `next` exactly `m` times,
where `m` is the number of Todo records (not the number of records),
moves the selection only through todo indices and ends back at the
starting record; moreover each call's search loop terminates — any fuel
of at least `len` gives the search's result. -/
theorem claim_C4_amended (items : List TodoItem) (start : Nat)
    (hstart : todoAt items start = true) :
    (∀ t, 0 < t → t ≤ numTodos items →
      todoAt items ((next^[t] { items := items, selected := start } : App).selected) = true)
    ∧ (next^[numTodos items] { items := items, selected := start } : App).selected = start
    ∧ (∀ f, items.length ≤ f → nextSelFuel items start f = nextSel items start) := by
  have hne : items ≠ [] := by
    intro h
    rw [h] at hstart
    simp [todoAt] at hstart
  have hsl : start < items.length := by
    by_contra hge
    push_neg at hge
    have hnone : items[start]? = none := List.getElem?_eq_none hge
    simp [todoAt, hnone] at hstart
  have hmem : start ∈ todoIdxs items := mem_todoIdxs.2 ⟨hsl, hstart⟩
  obtain ⟨⟨k, hk⟩, hgk⟩ := List.mem_iff_get.1 hmem
  have hm0 : 0 < (todoIdxs items).length := Nat.lt_of_le_of_lt (Nat.zero_le k) hk
  have hmlen : (todoIdxs items).length = numTodos items := todoIdxs_length items
  refine ⟨?_, ?_, ?_⟩
  · intro t ht0 htm
    obtain ⟨hit, hsel⟩ := next_iterate_app items hne t start
    rw [hsel, ← hgk, nextSel_iterate items t k hk (Nat.mod_lt _ hm0)]
    exact (mem_todoIdxs.1 (List.get_mem _ _ _)).2
  · obtain ⟨hit, hsel⟩ := next_iterate_app items hne (numTodos items) start
    rw [hsel, ← hgk, nextSel_iterate items (numTodos items) k hk (Nat.mod_lt _ hm0)]
    congr 1
    apply Fin.ext
    show (k + numTodos items) % (todoIdxs items).length = k
    rw [← hmlen, Nat.add_mod_right, Nat.mod_eq_of_lt hk]
  · intro f hf
    rw [← hgk]
    show nextSelFuel items _ f = nextSelFuel items _ items.length
    rw [nextSelFuel_todo_succ items k hk (Nat.mod_lt _ hm0) f hf,
      nextSelFuel_todo_succ items k hk (Nat.mod_lt _ hm0) items.length (Nat.le_refl _)]

/-- The single-todo document of the C4 witness. -/
def oneTodoItems : List TodoItem :=
  [{ text := ['a'], completed := false, line_type := .Todo }]

/-- C4 amended witness: a single-todo document cycles back in one step,
and any excess fuel agrees with the loop's result. -/
theorem claim_C4_witness :
    todoAt oneTodoItems ((next^[1] { items := oneTodoItems, selected := 0 } : App).selected)
        = true
    ∧ (next^[numTodos oneTodoItems] { items := oneTodoItems, selected := 0 } : App).selected = 0
    ∧ nextSelFuel oneTodoItems 0 5 = nextSel oneTodoItems 0 :=
  ⟨(claim_C4_amended oneTodoItems 0 (by decide)).1 1 (by decide) (by decide),
   (claim_C4_amended oneTodoItems 0 (by decide)).2.1,
   (claim_C4_amended oneTodoItems 0 (by decide)).2.2 5 (by decide)⟩

/-! ### Navigation safety on documents without todos -/

theorem coprime_succ_self_nat (n : Nat) : Nat.Coprime (n + 1) n := by
  have h := Nat.coprime_add_self_left.2 (Nat.coprime_one_left n)
  rwa [Nat.add_comm] at h

theorem mem_of_getElem?_some {α : Type _} {l : List α} {i : Nat} {a : α}
    (h : l[i]? = some a) : a ∈ l := by
  obtain ⟨hlt, hget⟩ := List.getElem?_eq_some.1 h
  exact hget ▸ List.getElem_mem hlt

/-- On a document without todos, `next`'s search walks the whole circle
and stops back at the start index. -/
theorem nextSel_no_todo (items : List TodoItem) (start : Nat)
    (hta : ∀ i, todoAt items i = false) (hs : start < items.length) :
    nextSel items start = start := by
  have hn0 : 0 < items.length := Nat.lt_of_le_of_lt (Nat.zero_le _) hs
  show seek (stopAt items start) (fun x => (x + 1) % items.length) items.length
      ((start + 1) % items.length) = start
  apply seek_reach _ _ (items.length - 1) items.length _ _ (by omega)
  · rw [iterate_incMod _ hn0 _ _ (Nat.mod_lt _ hn0), Nat.mod_add_mod]
    have harith : start + 1 + (items.length - 1) = start + items.length := by omega
    rw [harith, Nat.add_mod_right, Nat.mod_eq_of_lt hs]
  · intro k hk
    rw [iterate_incMod _ hn0 _ _ (Nat.mod_lt _ hn0), Nat.mod_add_mod]
    apply stopAt_false (hta _)
    rw [beq_eq_false_iff_ne]
    rcases Nat.lt_or_ge (start + 1 + k) items.length with hlt | hge
    · rw [Nat.mod_eq_of_lt hlt]
      omega
    · have harith : start + 1 + k = items.length + (start + 1 + k - items.length) := by omega
      rw [harith, Nat.add_mod_left, Nat.mod_eq_of_lt (by omega)]
      omega
  · simp [stopAt]

/-- On a document without todos, `previous`'s search walks the whole
circle backwards and stops back at the start index. -/
theorem prevSel_no_todo (items : List TodoItem) (start : Nat)
    (hta : ∀ i, todoAt items i = false) (hs : start < items.length) :
    prevSel items start = start := by
  have hn0 : 0 < items.length := Nat.lt_of_le_of_lt (Nat.zero_le _) hs
  obtain ⟨d, hd⟩ : ∃ d, items.length = d + 1 :=
    Nat.exists_eq_succ_of_ne_zero (by omega)
  have hc : prevStep items.length start = (start + (items.length - 1)) % items.length :=
    prevStep_eq _ _ hs
  show seek (stopAt items start) (prevStep items.length) items.length
      (prevStep items.length start) = start
  rw [hc]
  apply seek_reach _ _ (items.length - 1) items.length _ _ (by omega)
  · rw [iterate_prevStep _ hn0 _ _ (Nat.mod_lt _ hn0), Nat.mod_add_mod]
    have harith : start + (items.length - 1) + (items.length - 1) * (items.length - 1)
        = start + (items.length - 1) * items.length := by
      rw [hd]
      simp only [Nat.add_sub_cancel]
      ring
    rw [harith, Nat.add_mul_mod_self_right, Nat.mod_eq_of_lt hs]
  · intro k hk
    rw [iterate_prevStep _ hn0 _ _ (Nat.mod_lt _ hn0), Nat.mod_add_mod]
    apply stopAt_false (hta _)
    rw [beq_eq_false_iff_ne]
    intro heq
    have hcomb : start + (items.length - 1) + (items.length - 1) * k
        = start + (items.length - 1) * (k + 1) := by
      rw [Nat.mul_succ]
      omega
    rw [hcomb] at heq
    have hmod : (start + (items.length - 1) * (k + 1)) % items.length
        = (start + 0) % items.length := by
      rw [heq, Nat.add_zero, Nat.mod_eq_of_lt hs]
    have hzero : (items.length - 1) * (k + 1) ≡ 0 [MOD items.length] :=
      Nat.ModEq.add_left_cancel' start hmod
    have hdvd : items.length ∣ (items.length - 1) * (k + 1) :=
      (Nat.modEq_zero_iff_dvd).1 hzero
    have hcop : Nat.Coprime items.length (items.length - 1) := by
      rw [hd]
      simp only [Nat.add_sub_cancel]
      exact coprime_succ_self_nat d
    have hdvd1 : items.length ∣ (k + 1) := hcop.dvd_of_dvd_mul_left hdvd
    have := Nat.le_of_dvd (by omega) hdvd1
    omega
  · simp [stopAt]

theorem findIdx?_none_of_all {α : Type _} {p : α → Bool} {l : List α}
    (h : ∀ x ∈ l, p x = false) : l.findIdx? p = none := by
  rw [List.findIdx?_eq_none_iff]
  intro x hx
  simp [h x hx]

/-- On a document without todos, every todo-index test is false. -/
theorem todoAt_false_of_no_todo {items : List TodoItem}
    (hnt : ∀ it ∈ items, it.line_type ≠ LineType.Todo) :
    ∀ i, todoAt items i = false := by
  intro i
  cases hg : items[i]? with
  | none => simp [todoAt, hg]
  | some it =>
    have hmem : it ∈ items := mem_of_getElem?_some hg
    have hl := hnt it hmem
    cases hq : isTodoItem it with
    | false => simp [todoAt, hg, hq]
    | true => exact absurd (isTodoItem_iff it |>.1 hq) hl

/-- C5: on a document with zero todo records and an in-range selection
(or the empty document at selection 0), each of `next`, `previous`,
`goto_top` and `goto_bottom` is total and leaves the selection within
the bounds — below the length for a nonempty document, at `0` for the
empty one. -/
theorem claim_C5_nav_total (a : App)
    (hnt : ∀ it ∈ a.items, it.line_type ≠ LineType.Todo)
    (hsel : a.selected < a.items.length ∨ (a.items = [] ∧ a.selected = 0)) :
    ((a.items ≠ [] → (next a).selected < a.items.length)
      ∧ (a.items = [] → (next a).selected = 0))
    ∧ ((a.items ≠ [] → (previous a).selected < a.items.length)
      ∧ (a.items = [] → (previous a).selected = 0))
    ∧ ((a.items ≠ [] → (goto_top a).selected < a.items.length)
      ∧ (a.items = [] → (goto_top a).selected = 0))
    ∧ ((a.items ≠ [] → (goto_bottom a).selected < a.items.length)
      ∧ (a.items = [] → (goto_bottom a).selected = 0)) := by
  have hta := todoAt_false_of_no_todo hnt
  have hfind : a.items.findIdx? (fun it => isTodoItem it) = none := by
    apply findIdx?_none_of_all
    intro it hit
    cases hq : isTodoItem it with
    | false => rfl
    | true => exact absurd (isTodoItem_iff it |>.1 hq) (hnt it hit)
  have hrfind : a.items.reverse.findIdx? (fun it => isTodoItem it) = none := by
    apply findIdx?_none_of_all
    intro it hit
    cases hq : isTodoItem it with
    | false => rfl
    | true =>
      exact absurd (isTodoItem_iff it |>.1 hq) (hnt it (List.mem_reverse.1 hit))
  refine ⟨⟨?_, ?_⟩, ⟨?_, ?_⟩, ⟨?_, ?_⟩, ⟨?_, ?_⟩⟩
  · intro hne
    have hs : a.selected < a.items.length := by
      rcases hsel with h | ⟨h, _⟩
      · exact h
      · exact absurd h hne
    rw [next_selected a hne, nextSel_no_todo a.items a.selected hta hs]
    exact hs
  · intro hnil
    have : a.items.isEmpty = true := by rw [hnil]; rfl
    have hval : next a = a := by simp [next, this]
    rw [hval]
    exact (hsel.resolve_left (by rw [hnil]; simp)).2
  · intro hne
    have hs : a.selected < a.items.length := by
      rcases hsel with h | ⟨h, _⟩
      · exact h
      · exact absurd h hne
    have hni : a.items.isEmpty = false := by
      cases hq : a.items with
      | nil => exact absurd hq hne
      | cons x xs => rfl
    have hval : (previous a).selected = prevSel a.items a.selected := by
      simp [previous, hni]
    rw [hval, prevSel_no_todo a.items a.selected hta hs]
    exact hs
  · intro hnil
    have : a.items.isEmpty = true := by rw [hnil]; rfl
    have hval : previous a = a := by simp [previous, this]
    rw [hval]
    exact (hsel.resolve_left (by rw [hnil]; simp)).2
  · intro hne
    show ((a.items.findIdx? (fun it => isTodoItem it)).getD 0) < a.items.length
    rw [hfind, Option.getD_none]
    have : a.items.length ≠ 0 := by
      intro h
      exact hne (List.length_eq_zero.1 h)
    omega
  · intro hnil
    show ((a.items.findIdx? (fun it => isTodoItem it)).getD 0) = 0
    rw [hfind]
    rfl
  · intro hne
    have hrp : rpositionTodo a.items = none := by
      unfold rpositionTodo
      rw [hrfind]
    show ((rpositionTodo a.items).getD (a.items.length - 1)) < a.items.length
    rw [hrp, Option.getD_none]
    have : a.items.length ≠ 0 := by
      intro h
      exact hne (List.length_eq_zero.1 h)
    omega
  · intro hnil
    have hrp : rpositionTodo a.items = none := by
      unfold rpositionTodo
      rw [hrfind]
    show ((rpositionTodo a.items).getD (a.items.length - 1)) = 0
    rw [hrp, Option.getD_none, hnil]
    rfl

/-- C5 witness: a two-record document of non-todo lines, selection 1. -/
def noTodoItems : List TodoItem :=
  [{ text := ['h'], completed := false, line_type := .Text },
   { text := [], completed := false, line_type := .Empty }]

theorem claim_C5_witness :
    (next { items := noTodoItems, selected := 1 } : App).selected < 2
    ∧ (previous { items := noTodoItems, selected := 1 } : App).selected < 2
    ∧ (goto_top { items := noTodoItems, selected := 1 } : App).selected < 2
    ∧ (goto_bottom { items := noTodoItems, selected := 1 } : App).selected < 2 := by
  have h := claim_C5_nav_total { items := noTodoItems, selected := 1 }
    (by decide) (Or.inl (by decide))
  exact ⟨h.1.1 (by decide), h.2.1.1 (by decide), h.2.2.1.1 (by decide), h.2.2.2.1 (by decide)⟩

/-! ### Round trip: serialize then parse -/

theorem trim_sublist (l : List Char) : List.Sublist (trim l) l := by
  rw [trim, trimR_eq_rdrop]
  exact ((List.rdropWhile_prefix isWS (trimL l)).sublist).trans
    ((List.dropWhile_suffix isWS).sublist)

theorem mem_of_getLast?_some {α : Type _} {l : List α} {a : α}
    (h : l.getLast? = some a) : a ∈ l := by
  have hx : a ∈ l.getLast? := Option.mem_def.2 h
  obtain ⟨hne, heq⟩ := List.mem_getLast?_eq_getLast hx
  rw [heq]
  exact List.getLast_mem hne

theorem stripCR_sublist (l : List Char) : List.Sublist (stripCR l) l := by
  unfold stripCR
  by_cases h : l.getLast? = some '\r'
  · simp only [h, if_true]
    exact List.dropLast_sublist l
  · simp only [h, if_false]
    exact List.Sublist.refl l

theorem splitNl_ne_nil (s : List Char) : splitNl s ≠ [] := by
  cases s with
  | nil => simp [splitNl]
  | cons c cs =>
    unfold splitNl
    by_cases hc : c = '\n'
    · simp [hc]
    · simp only [hc, if_false]
      cases splitNl cs <;> simp

theorem mem_splitNl_no_nl (s : List Char) : ∀ f ∈ splitNl s, '\n' ∉ f := by
  induction s with
  | nil =>
    intro f hf
    simp [splitNl] at hf
    subst hf
    simp
  | cons c cs ih =>
    intro f hf
    by_cases hc : c = '\n'
    · rw [show splitNl (c :: cs) = [] :: splitNl cs from by simp [splitNl, hc]] at hf
      rcases List.mem_cons.1 hf with rfl | hmem
      · simp
      · exact ih f hmem
    · cases hsp : splitNl cs with
      | nil => exact absurd hsp (splitNl_ne_nil cs)
      | cons g gs =>
        rw [show splitNl (c :: cs) = (c :: g) :: gs from by simp [splitNl, hc, hsp]] at hf
        rcases List.mem_cons.1 hf with rfl | hmem
        · intro hcon
          rcases List.mem_cons.1 hcon with hceq | hmem2
          · exact hc hceq.symm
          · exact ih g (hsp ▸ List.mem_cons_self g gs) hmem2
        · exact ih f (hsp ▸ List.mem_cons_of_mem g hmem)

theorem linesOf_no_nl (s : List Char) : ∀ l ∈ linesOf s, '\n' ∉ l := by
  intro l hl
  have hl' : l ∈ (splitNl s).dropLast.map stripCR ++
      (match (splitNl s).getLast? with
        | some [] => []
        | some lst => [lst]
        | none => []) := hl
  rcases List.mem_append.1 hl' with hleft | hright
  · obtain ⟨f, hf, rfl⟩ := List.mem_map.1 hleft
    intro hmem
    exact mem_splitNl_no_nl s f ((List.dropLast_sublist _).subset hf)
      ((stripCR_sublist f).subset hmem)
  · cases hgl : (splitNl s).getLast? with
    | none =>
      rw [hgl] at hright
      simp at hright
    | some lst =>
      cases lst with
      | nil =>
        rw [hgl] at hright
        simp at hright
      | cons d ds =>
        rw [hgl] at hright
        have : l = d :: ds := by simpa using hright
        subst this
        exact mem_splitNl_no_nl s _ (mem_of_getLast?_some hgl)

theorem splitNl_append_line (r t : List Char) (h : '\n' ∉ r) :
    splitNl (r ++ '\n' :: t) = r :: splitNl t := by
  induction r with
  | nil => simp [splitNl]
  | cons c cr ih =>
    have hc : ¬(c = '\n') := fun hh => h (hh ▸ List.mem_cons_self c cr)
    have h' : '\n' ∉ cr := fun hh => h (List.mem_cons_of_mem _ hh)
    rw [List.cons_append]
    rw [show splitNl (c :: (cr ++ '\n' :: t))
        = if c = '\n' then [] :: splitNl (cr ++ '\n' :: t)
          else match splitNl (cr ++ '\n' :: t) with
            | [] => [[c]]
            | f :: fs => (c :: f) :: fs from rfl]
    rw [ih h']
    simp [hc]

theorem splitNl_flatten (rs : List (List Char)) (h : ∀ r ∈ rs, '\n' ∉ r) :
    splitNl ((rs.map (fun r => r ++ ['\n'])).flatten) = rs ++ [[]] := by
  induction rs with
  | nil => rfl
  | cons r rs ih =>
    simp only [List.map_cons, List.flatten_cons]
    rw [List.append_assoc, List.singleton_append,
      splitNl_append_line r _ (h r (List.mem_cons_self r rs)),
      ih (fun q hq => h q (List.mem_cons_of_mem r hq))]
    rfl

theorem linesOf_flatten (rs : List (List Char)) (h : ∀ r ∈ rs, '\n' ∉ r) :
    linesOf ((rs.map (fun r => r ++ ['\n'])).flatten) = rs.map stripCR := by
  show (splitNl _).dropLast.map stripCR ++
      (match (splitNl _).getLast? with
        | some [] => []
        | some lst => [lst]
        | none => []) = rs.map stripCR
  rw [splitNl_flatten rs h, List.dropLast_concat, List.getLast?_concat]
  simp

/-- The three per-line round-trip facts: re-classifying the rendered
line gives the same record, the rendered line has no trailing carriage
return, and any newline in the rendered line came from the input. -/
def LineRT (t : List Char) : Prop :=
  classifyLine (renderLine (classifyCore t)) = classifyCore t
  ∧ stripCR (renderLine (classifyCore t)) = renderLine (classifyCore t)
  ∧ ('\n' ∈ renderLine (classifyCore t) → '\n' ∈ t)

/-- When the rendered line is the trimmed line itself (every non-todo
branch), the round trip follows from idempotence of trimming. -/
theorem rt_via_self (t : List Char) (htt : trim t = t)
    (hrender : renderLine (classifyCore t) = t) : LineRT t := by
  unfold LineRT
  rw [hrender]
  have hlast : lastOk t := lastOk_of_trimR_eq_self (by rw [← htt]; exact trimR_trim t)
  refine ⟨by rw [classifyLine_eq_core, htt], ?_, fun h => h⟩
  by_cases hcl : t.getLast? = some '\r'
  · exact absurd (hlast '\r' hcl) (by decide)
  · simp [stripCR, hcl]

/-- Round trip for the unchecked-box branch. -/
theorem rt_todoOpen (t : List Char) (_htt : trim t = t)
    (h1 : sw pfxTodoOpen t = true) : LineRT t := by
  unfold LineRT
  have hstrip : (stripPfx pfxTodoOpen t).getD [] = t.drop pfxTodoOpen.length := by
    rw [stripPfx_pos h1, Option.getD_some]
  have hcc : classifyCore t
      = ⟨trim (t.drop pfxTodoOpen.length), false, LineType.Todo⟩ := by
    simp [classifyCore, h1, hstrip]
  rw [hcc]
  have hrl : renderLine ⟨trim (t.drop pfxTodoOpen.length), false, LineType.Todo⟩
      = pfxTodoOpen ++ (' ' :: trim (t.drop pfxTodoOpen.length)) := rfl
  rw [hrl]
  cases htr : trim (t.drop pfxTodoOpen.length) with
  | nil =>
    refine ⟨by decide, by decide, fun hmem => absurd hmem (by decide)⟩
  | cons c cs =>
    have htrim2 : trim (c :: cs) = c :: cs := by rw [← htr]; exact trim_trim _
    have hlast2 : lastOk (c :: cs) :=
      lastOk_of_trimR_eq_self (by rw [← htr]; exact trimR_trim _)
    have hshape : pfxTodoOpen ++ (' ' :: c :: cs) = (pfxTodoOpen ++ [' ']) ++ (c :: cs) := by
      simp
    have hrt : trim (pfxTodoOpen ++ (' ' :: c :: cs)) = pfxTodoOpen ++ (' ' :: c :: cs) := by
      apply trim_eq_self
      · intro d hd
        simp [pfxTodoOpen] at hd
        rw [← hd]
        decide
      · rw [hshape]
        exact lastOk_append (by simp) hlast2
    refine ⟨?_, ?_, ?_⟩
    · rw [classifyLine_eq_core, hrt]
      have hg1 : sw pfxTodoOpen (pfxTodoOpen ++ (' ' :: c :: cs)) = true := sw_append_self _ _
      have hstrip2 : (stripPfx pfxTodoOpen (pfxTodoOpen ++ (' ' :: c :: cs))).getD []
          = ' ' :: c :: cs := by
        rw [stripPfx_pos hg1]
        simp [List.drop_left]
      simp [classifyCore, hg1, hstrip2, trim_cons_ws _ (by decide : isWS ' ' = true), htrim2]
    · have hgl : ¬((pfxTodoOpen ++ (' ' :: c :: cs)).getLast? = some '\r') := by
        rw [hshape, List.getLast?_append_of_ne_nil _ (by simp)]
        intro hcon
        exact absurd (hlast2 '\r' hcon) (by decide)
      unfold stripCR
      rw [if_neg hgl]
    · intro hmem
      have hsub : List.Sublist (c :: cs) t := by
        rw [← htr]
        exact (trim_sublist _).trans (List.drop_sublist _ _)
      rcases List.mem_append.1 hmem with hmem | hmem
      · exact absurd hmem (by decide)
      · rcases List.mem_cons.1 hmem with hceq | hmem2
        · exact absurd hceq (by decide)
        · exact hsub.subset hmem2

/-- Round trip for the checked-box branch. -/
theorem rt_todoX (t : List Char) (_htt : trim t = t)
    (h1 : sw pfxTodoOpen t = false)
    (h2 : (sw pfxTodoLower t || sw pfxTodoUpper t) = true) : LineRT t := by
  unfold LineRT
  have hstrip : (((stripPfx pfxTodoLower t).orElse
      (fun _ => stripPfx pfxTodoUpper t)).getD []) = t.drop 5 := by
    cases hsw : sw pfxTodoLower t with
    | true =>
      rw [stripPfx_pos hsw]
      simp [pfxTodoLower, Option.orElse]
    | false =>
      rw [hsw] at h2
      simp only [Bool.false_or] at h2
      have hnone : stripPfx pfxTodoLower t = none := by simp [stripPfx, hsw]
      rw [hnone, stripPfx_pos h2]
      simp [pfxTodoUpper, Option.orElse]
  have hcc : classifyCore t
      = ⟨trim (t.drop 5), true, LineType.Todo⟩ := by
    simp [classifyCore, h1, h2, hstrip]
  rw [hcc]
  have hrl : renderLine ⟨trim (t.drop 5), true, LineType.Todo⟩
      = pfxTodoLower ++ (' ' :: trim (t.drop 5)) := rfl
  rw [hrl]
  cases htr : trim (t.drop 5) with
  | nil =>
    refine ⟨by decide, by decide, fun hmem => absurd hmem (by decide)⟩
  | cons c cs =>
    have htrim2 : trim (c :: cs) = c :: cs := by rw [← htr]; exact trim_trim _
    have hlast2 : lastOk (c :: cs) :=
      lastOk_of_trimR_eq_self (by rw [← htr]; exact trimR_trim _)
    have hshape : pfxTodoLower ++ (' ' :: c :: cs) = (pfxTodoLower ++ [' ']) ++ (c :: cs) := by
      simp
    have hrt : trim (pfxTodoLower ++ (' ' :: c :: cs)) = pfxTodoLower ++ (' ' :: c :: cs) := by
      apply trim_eq_self
      · intro d hd
        simp [pfxTodoLower] at hd
        rw [← hd]
        decide
      · rw [hshape]
        exact lastOk_append (by simp) hlast2
    refine ⟨?_, ?_, ?_⟩
    · rw [classifyLine_eq_core, hrt]
      have hg1 : sw pfxTodoOpen (pfxTodoLower ++ (' ' :: c :: cs)) = false := by
        simp [pfxTodoOpen, pfxTodoLower, sw]
      have hg2 : sw pfxTodoLower (pfxTodoLower ++ (' ' :: c :: cs)) = true := sw_append_self _ _
      have hstrip2 : (((stripPfx pfxTodoLower (pfxTodoLower ++ (' ' :: c :: cs))).orElse
          (fun _ => stripPfx pfxTodoUpper (pfxTodoLower ++ (' ' :: c :: cs)))).getD [])
          = ' ' :: c :: cs := by
        rw [stripPfx_pos hg2]
        simp [List.drop_left, Option.orElse]
      simp [classifyCore, hg1, hg2, hstrip2,
        trim_cons_ws _ (by decide : isWS ' ' = true), htrim2]
    · have hgl : ¬((pfxTodoLower ++ (' ' :: c :: cs)).getLast? = some '\r') := by
        rw [hshape, List.getLast?_append_of_ne_nil _ (by simp)]
        intro hcon
        exact absurd (hlast2 '\r' hcon) (by decide)
      unfold stripCR
      rw [if_neg hgl]
    · intro hmem
      have hsub : List.Sublist (c :: cs) t := by
        rw [← htr]
        exact (trim_sublist _).trans (List.drop_sublist _ _)
      rcases List.mem_append.1 hmem with hmem | hmem
      · exact absurd hmem (by decide)
      · rcases List.mem_cons.1 hmem with hceq | hmem2
        · exact absurd hceq (by decide)
        · exact hsub.subset hmem2

/-- The per-line round trip, by the classifier's branches. -/
theorem render_roundtrip (t : List Char) (htt : trim t = t) : LineRT t := by
  cases h1 : sw pfxTodoOpen t with
  | true => exact rt_todoOpen t htt h1
  | false =>
  cases h2 : (sw pfxTodoLower t || sw pfxTodoUpper t) with
  | true => exact rt_todoX t htt h1 h2
  | false =>
  cases h3 : sw pfxH1 t with
  | true =>
    apply rt_via_self t htt
    have hstrip : (stripPfx pfxH1 t).getD t = t.drop pfxH1.length := by
      rw [stripPfx_pos h3, Option.getD_some]
    have hcc : classifyCore t = ⟨t.drop pfxH1.length, false, LineType.Header1⟩ := by
      simp [classifyCore, h1, h2, h3, hstrip]
    rw [hcc]
    exact sw_decomp h3
  | false =>
  cases h4 : sw pfxH2 t with
  | true =>
    apply rt_via_self t htt
    have hstrip : (stripPfx pfxH2 t).getD t = t.drop pfxH2.length := by
      rw [stripPfx_pos h4, Option.getD_some]
    have hcc : classifyCore t = ⟨t.drop pfxH2.length, false, LineType.Header2⟩ := by
      simp [classifyCore, h1, h2, h3, h4, hstrip]
    rw [hcc]
    exact sw_decomp h4
  | false =>
  cases h5 : sw pfxH3 t with
  | true =>
    apply rt_via_self t htt
    have hstrip : (stripPfx pfxH3 t).getD t = t.drop pfxH3.length := by
      rw [stripPfx_pos h5, Option.getD_some]
    have hcc : classifyCore t = ⟨t.drop pfxH3.length, false, LineType.Header3⟩ := by
      simp [classifyCore, h1, h2, h3, h4, h5, hstrip]
    rw [hcc]
    exact sw_decomp h5
  | false =>
  cases h6 : (sw pfxBullet t && !sw pfxBulletBracket t) with
  | true =>
    apply rt_via_self t htt
    have h6a : sw pfxBullet t = true := by
      have := h6
      simp only [Bool.and_eq_true] at this
      exact this.1
    have hstrip : (stripPfx pfxBullet t).getD t = t.drop pfxBullet.length := by
      rw [stripPfx_pos h6a, Option.getD_some]
    have hcc : classifyCore t = ⟨t.drop pfxBullet.length, false, LineType.Bullet⟩ := by
      simp [classifyCore, h1, h2, h3, h4, h5, h6, hstrip]
    rw [hcc]
    exact sw_decomp h6a
  | false =>
  cases h7 : t.isEmpty with
  | true =>
    have ht : t = [] := List.isEmpty_iff.1 h7
    subst ht
    apply rt_via_self [] htt
    decide
  | false =>
    apply rt_via_self t htt
    have hcc : classifyCore t = ⟨t, false, LineType.Text⟩ := by
      simp [classifyCore, h1, h2, h3, h4, h5, h6, h7]
    rw [hcc]
    rfl

/-- The per-line round trip for a raw line. -/
theorem classifyLine_render_roundtrip (l : List Char) :
    classifyLine (renderLine (classifyLine l)) = classifyLine l
    ∧ stripCR (renderLine (classifyLine l)) = renderLine (classifyLine l)
    ∧ ('\n' ∈ renderLine (classifyLine l) → '\n' ∈ l) := by
  have h := render_roundtrip (trim l) (trim_trim l)
  unfold LineRT at h
  exact ⟨h.1, h.2.1, fun hm => (trim_sublist l).subset (h.2.2 hm)⟩

/-- Core round-trip: parsing the serialization of a parsed document
gives the same records. -/
theorem load_save_load_core (x : List Char) :
    load_todos (save_todos (load_todos x)) = load_todos x := by
  have hnl : ∀ l ∈ linesOf x, '\n' ∉ l := linesOf_no_nl x
  have hrnl : ∀ r ∈ (linesOf x).map (fun l => renderLine (classifyLine l)), '\n' ∉ r := by
    intro r hr
    obtain ⟨l, hl, rfl⟩ := List.mem_map.1 hr
    intro hmem
    exact hnl l hl ((classifyLine_render_roundtrip l).2.2 hmem)
  have hsave : save_todos (load_todos x)
      = (((linesOf x).map (fun l => renderLine (classifyLine l))).map
          (fun r => r ++ ['\n'])).flatten := by
    unfold save_todos load_todos
    rw [List.map_map, List.map_map]
    rfl
  show (linesOf (save_todos (load_todos x))).map classifyLine
      = (linesOf x).map classifyLine
  rw [hsave, linesOf_flatten _ hrnl, List.map_map, List.map_map]
  apply List.map_congr_left
  intro l _
  show classifyLine (stripCR (renderLine (classifyLine l))) = classifyLine l
  rw [(classifyLine_render_roundtrip l).2.1]
  exact (classifyLine_render_roundtrip l).1

/-- C10: parsing is a left inverse of serializing on parsed documents:
for every input text, parsing the serialization of the parse gives
exactly the same records in the same order, with equal kind, text and
completed flag. -/
theorem claim_C10_parse_left_inverse (x : List Char) :
    load_todos (save_todos (load_todos x)) = load_todos x :=
  load_save_load_core x

/-- C2: serializing is idempotent after one parse-serialize pass: for
every input text, serialize(parse(serialize(parse(x)))) equals
serialize(parse(x)). -/
theorem claim_C2_serialize_idempotent (x : List Char) :
    save_todos (load_todos (save_todos (load_todos x))) = save_todos (load_todos x) :=
  congrArg save_todos (load_save_load_core x)

/-- C1 witness: completing the single incomplete todo fires the
celebration. -/
theorem claim_C1_witness :
    SessionEffect.celebrate ∈ (handleToggleKey { items := oneTodoItems, selected := 0 }).2 :=
  (claim_C1_celebration { items := oneTodoItems, selected := 0 }).1.mpr (by decide)

end TodoApp
